import Mathlib

/-!
Verification model of the business-name-naturalizer pipeline.

Shallow embedding of the core pipeline of the repository:
* `naturalizeNames`   — src/services/openrouter.js (response parsing, retry,
  identity fallback);
* `processBatch`      — the batch orchestrator (dedup, cache-aside, batched
  API calls, result propagation);
* `getCachedNaturalNames`, `saveToCache`, `updateRecordsWithNaturalNames`
  — src/db/queries.js;
* the 500-key chunked cache check of
  src/db/queries_optimized.js (`getUncachedRecordsByCategories`).

External I/O (HTTP transport, database) is modelled by explicit oracles:
per-attempt API outcomes, per-batch cache-save failure flags, a cache-lookup
failure flag and a set of record ids whose updates fail.  JavaScript string
truthiness (`x || y` falling back on the empty string as well as on
undefined) is modelled explicitly by `jsOr` / `jsTruthy`.
-/

set_option maxRecDepth 10000

namespace Naturalizer

/-! ## Strings: the pieces of JavaScript string handling the parser uses.

All functions work on `List Char` and are structurally recursive so that
concrete runs reduce inside the kernel. -/

/-- Model of JavaScript `String.prototype.trim` on a character list:
drop whitespace from both ends. -/
def trimChars (cs : List Char) : List Char :=
  ((cs.dropWhile Char.isWhitespace).reverse.dropWhile Char.isWhitespace).reverse

/-- Model of JavaScript `content.split('\n')`: split a character list at
every newline.  `[]` input yields one empty segment, as in JavaScript. -/
def splitLines : List Char → List (List Char)
  | [] => [[]]
  | c :: cs =>
    if c = '\n' then [] :: splitLines cs
    else
      match splitLines cs with
      | [] => [[c]]
      | l :: ls => (c :: l) :: ls

/-- Model of `line.replace(/^\d+\.\s*/, '')` in `naturalizeNames`:
strip one leading run of digits followed by a dot and optional whitespace;
a line that does not match the pattern is returned unchanged. -/
def stripNumbering (cs : List Char) : List Char :=
  let ds := cs.takeWhile Char.isDigit
  if ds.isEmpty then cs
  else
    match cs.drop ds.length with
    | '.' :: rest => rest.dropWhile Char.isWhitespace
    | _ => cs

/-- The response parser of `naturalizeNames` (src/services/openrouter.js):
`content.trim().split('\n').filter(line => line.trim())
        .map(line => line.replace(/^\d+\.\s*/, '').trim())`. -/
def parseNaturalNames (content : String) : List String :=
  let lines := splitLines (trimChars content.data)
  let kept := lines.filter (fun l => !(trimChars l).isEmpty)
  kept.map (fun l => String.mk (trimChars (stripNumbering l)))

/-! ## The Naturalizer: `naturalizeNames` of src/services/openrouter.js -/

/-- `MAX_RETRIES` constant of src/services/openrouter.js. -/
def MAX_RETRIES : Nat := 3

/-- `RETRY_DELAY` constant of src/services/openrouter.js (milliseconds). -/
def RETRY_DELAY : Nat := 3000

/-- Classification of an upstream API failure.  The taxonomy exists in the
spec; the source's catch block never inspects it, which the model makes
visible by never branching on the `ErrKind` argument. -/
inductive ErrKind where
  | rateLimited
  | quotaExhausted
  | transient
  deriving DecidableEq, Repr

/-- Outcome of one HTTP attempt against the generation API. -/
inductive ApiOutcome where
  | success (content : String)
  | failure (kind : ErrKind)
  deriving DecidableEq, Repr

/-- What one call to `naturalizeNames` produces.  `names` is the value the
source function returns; `apiAttempts`, `fellBack` and `delays` are model
instrumentation recording how many HTTP attempts were made, whether the
identity fallback fired, and the waits inserted between attempts. -/
structure NaturalizeResult where
  names : List String
  apiAttempts : Nat
  fellBack : Bool
  delays : List Nat
  deriving DecidableEq, Repr

/-- The tail-padding step of `naturalizeNames`:
`while (naturalNames.length < businessNames.length)
   naturalNames.push(businessNames[naturalNames.length])`.
When `parsed` is at least as long as `businessNames` the loop body never
runs and the list is returned unchanged. -/
def padNaturalNames (parsed businessNames : List String) : List String :=
  parsed ++ businessNames.drop parsed.length

/-- Success path of `naturalizeNames`: parse the response and pad only when
the parsed line count differs (the source pads only upward; a longer parse
is returned as is). -/
def naturalizeSuccess (content : String) (businessNames : List String) :
    NaturalizeResult :=
  let naturalNames := parseNaturalNames content
  let final :=
    if naturalNames.length ≠ businessNames.length then
      padNaturalNames naturalNames businessNames
    else naturalNames
  ⟨final, 1, false, []⟩

/-- Recursion core of `naturalizeNames`.  `remaining` is
`MAX_RETRIES - retryCount`: the source retries while
`retryCount < MAX_RETRIES`, so at `remaining = 0` a failure returns the
input names unchanged (the identity fallback). `attempt` is the absolute
attempt index fed to the outcome oracle. -/
def naturalizeAux (oracle : Nat → ApiOutcome) (businessNames : List String) :
    Nat → Nat → NaturalizeResult
  | 0, attempt =>
    match oracle attempt with
    | .success content => naturalizeSuccess content businessNames
    | .failure _ => ⟨businessNames, 1, true, []⟩
  | remaining + 1, attempt =>
    match oracle attempt with
    | .success content => naturalizeSuccess content businessNames
    | .failure _ =>
      let r := naturalizeAux oracle businessNames remaining (attempt + 1)
      ⟨r.names, r.apiAttempts + 1, r.fellBack, RETRY_DELAY :: r.delays⟩

/-- `naturalizeNames(businessNames, retryCount)` of
src/services/openrouter.js, with the HTTP transport abstracted to `oracle`
(the outcome of each attempt).  Every failure, regardless of its
classification, is retried after the fixed `RETRY_DELAY` while
`retryCount < MAX_RETRIES`; exhausted retries return the input unchanged.
The function never throws. -/
def naturalizeNames (oracle : Nat → ApiOutcome) (businessNames : List String)
    (retryCount : Nat := 0) : NaturalizeResult :=
  naturalizeAux oracle businessNames (MAX_RETRIES - retryCount) retryCount

/-! ## Data model: source records, string-keyed maps, JavaScript truthiness -/

/-- One row of `outbound_email_targets` as the pipeline sees it:
`place_id` (stable key), `google_name` (display name, SQL-nullable) and
`natural_name` (resolved name, null until the pipeline writes it). -/
structure SourceRecord where
  place_id : String
  google_name : Option String
  natural_name : Option String
  deriving DecidableEq, Repr

/-- A JavaScript string-keyed object / cache table: an association list.
Lookup takes the first matching entry; `mapInsert` keeps keys unique. -/
def lookupKey : List (String × String) → String → Option String
  | [], _ => none
  | p :: ps, k => if p.1 = k then some p.2 else lookupKey ps k

/-- Assignment `m[k] = v` on a string-keyed object (or an upsert keyed by
`original_name` on the cache table): replace the existing entry for `k`,
or append a new one. -/
def mapInsert (m : List (String × String)) (k v : String) :
    List (String × String) :=
  if m.any (fun p => p.1 = k) then
    m.map (fun p => if p.1 = k then (k, v) else p)
  else m ++ [(k, v)]

/-- JavaScript truthiness of a possibly-absent string: `undefined` and the
empty string are both falsy. -/
def jsTruthy : Option String → Bool
  | some v => v ≠ ""
  | none => false

/-- JavaScript `v || fallback` where `v` was read as a string with default
`""` for `undefined`: the fallback is taken when `v` is empty. -/
def jsOr (v fallback : String) : String :=
  if v = "" then fallback else v

/-- The display name of a fetched record.  Fetched records always have
`google_name` non-null (the fetch filters on it), so the `""` default is
never consulted on the pipeline's inputs. -/
def recordName (r : SourceRecord) : String :=
  r.google_name.getD ""

/-- A record is pending exactly when `natural_name IS NULL AND google_name
IS NOT NULL` — the `pending_naturalizations` view of the migration and the
direct query of `getRecordsToProcess`. -/
def isPending (r : SourceRecord) : Bool :=
  r.natural_name.isNone && r.google_name.isSome

/-- `getRecordsToProcess(limit)` of src/db/queries.js: the pending records,
up to `limit` of them. -/
def getRecordsToProcess (records : List SourceRecord) (limit : Nat) :
    List SourceRecord :=
  (records.filter isPending).take limit

/-- Core of `[...new Set(list)]`: walk the list keeping the first
occurrence of each element, `seen` being the set built so far. -/
def dedupFirstAux (seen : List String) : List String → List String
  | [] => []
  | x :: xs =>
    if seen.contains x then dedupFirstAux seen xs
    else x :: dedupFirstAux (seen ++ [x]) xs

/-- `[...new Set(list)]` — JavaScript set construction preserves first
occurrences in order. -/
def dedupFirst (l : List String) : List String :=
  dedupFirstAux [] l

/-- The deduplication step of `processBatch`:
`[...new Set(records.map(r => r.google_name))]`.  No name is filtered out:
empty or whitespace-only display names stay in the result. -/
def uniqueNamesOf (records : List SourceRecord) : List String :=
  dedupFirst (records.map recordName)

/-! ## CacheGateway -/

/-- Result of one `getCachedNaturalNames` call, with the backend requests
it issued recorded: each element of `requests` is the key list of one
`IN (...)` query. -/
structure CacheLookup where
  requests : List (List String)
  found : List (String × String)
  deriving DecidableEq, Repr

/-- `getCachedNaturalNames(originalNames)` of src/db/queries.js: an empty
input short-circuits to an empty map with no query; otherwise one single
`IN`-query carries the whole name list (the function does not chunk).  A
backend failure is swallowed and the whole lookup degrades to the empty
map, so every name is treated as uncached and the pipeline proceeds. -/
def getCachedNaturalNames (cache : List (String × String))
    (originalNames : List String) (fails : Bool) : CacheLookup :=
  if originalNames.isEmpty then ⟨[], []⟩
  else if fails then ⟨[originalNames], []⟩
  else
    ⟨[originalNames],
     originalNames.filterMap fun n => (lookupKey cache n).map fun v => (n, v)⟩

/-- `saveToCache(names)` of src/db/queries.js: upsert each entry keyed by
`original_name`, replacing the stored natural name on conflict (usage
counters are backend bookkeeping outside this model). -/
def saveToCache (cache : List (String × String))
    (entries : List (String × String)) : List (String × String) :=
  entries.foldl (fun c p => mapInsert c p.1 p.2) cache

/-- Splitting a list into consecutive chunks of at most `n` elements —
the `for (let i = 0; i < xs.length; i += n) xs.slice(i, i + n)` loops of
`processBatch` (batch size), `updateRecordsWithNaturalNames` (100) and the
cache check of `getUncachedRecordsByCategories` (500). -/
def chunksOf (n : Nat) (l : List α) : List (List α) :=
  go l []
where
  /-- Structural accumulator pass: `cur` is the chunk being filled. -/
  go : List α → List α → List (List α)
  | [], cur => if cur.isEmpty then [] else [cur]
  | x :: xs, cur =>
    if n ≤ cur.length + 1 then (cur ++ [x]) :: go xs []
    else go xs (cur ++ [x])

/-- The chunked cache check inside `getUncachedRecordsByCategories`
(src/db/queries_optimized.js): the unique names are cut into 500-key
chunks; each chunk is one `IN`-query returning the cached keys it finds,
but `if (cacheError) throw cacheError` makes any chunk failure abort the
whole call.  `chunkFails` says which chunk indices fail. -/
def uncachedCacheCheck (cache : List (String × String))
    (uniqueNames : List String) (chunkFails : Nat → Bool) :
    Except String (List String) :=
  go (chunksOf 500 uniqueNames) 0 []
where
  /-- Iterate the chunks in order, accumulating found keys. -/
  go : List (List String) → Nat → List String → Except String (List String)
  | [], _, acc => .ok acc
  | chunk :: rest, i, acc =>
    if chunkFails i then .error "cache chunk query failed"
    else go rest (i + 1) (acc ++ chunk.filter (fun n => (lookupKey cache n).isSome))

/-! ## ResultPropagator: `updateRecordsWithNaturalNames` of src/db/queries.js -/

/-- One `UPDATE outbound_email_targets SET natural_name = ... WHERE
place_id = ...` statement: set the natural name of every record carrying
this `place_id`. -/
def applyUpdate (records : List SourceRecord) (pid naturalName : String) :
    List SourceRecord :=
  records.map fun r =>
    if r.place_id = pid then { r with natural_name := some naturalName } else r

/-- One record update inside a chunk, with its individual try/catch: an id
in `failSet` fails, is logged, leaves the store untouched and is not
counted; every other update is applied and counted.  The accumulator is
(record store, updated-count). -/
def applyOneUpdate (failSet : List String)
    (acc : List SourceRecord × Nat) (u : String × String) :
    List SourceRecord × Nat :=
  if failSet.contains u.1 then acc
  else (applyUpdate acc.1 u.1 u.2, acc.2 + 1)

/-- `updateRecordsWithNaturalNames(updates)` of src/db/queries.js
(lines 463–496): the updates are cut into chunks of 100; inside a chunk
every record update runs with its own catch, so one failure neither aborts
the chunk nor the call.  Returns the new store and `totalUpdated`, the
number of updates that succeeded.  (The source fires a chunk's updates
through `Promise.all`; the model linearises them in order, which is
faithful because each update touches only its own `place_id` rows.) -/
def updateRecordsWithNaturalNames (records : List SourceRecord)
    (updates : List (String × String)) (failSet : List String) :
    List SourceRecord × Nat :=
  (chunksOf 100 updates).foldl
    (fun acc chunk => chunk.foldl (applyOneUpdate failSet) acc)
    (records, 0)

/-! ## Orchestrator: `processBatch` of the batch-processor service -/

/-- `BATCH_SIZE` default of the batch processor. -/
def BATCH_SIZE : Nat := 8

/-- The environment of one run: everything the outside world decides.
`apiOracle b a` is the outcome of HTTP attempt `a` of batch `b`;
`saveFails b` says whether batch `b`'s `saveToCache` throws;
`cacheLookupFails` makes the initial cache lookup degrade to empty;
`updateFailSet` is the set of `place_id`s whose record update fails;
`fetchFails` makes the initial `getRecordsToProcess` throw. -/
structure BatchEnv where
  apiOracle : Nat → Nat → ApiOutcome
  saveFails : Nat → Bool
  cacheLookupFails : Bool
  updateFailSet : List String
  fetchFails : Bool

/-- The statistics object `processBatch` builds.  `apiAttempts` is model
instrumentation: the total number of HTTP attempts made against the
generation API, retries included (`api_calls` is the source's own counter,
one per batch). -/
structure RunStats where
  processed : Nat
  naturalized : Nat
  from_cache : Nat
  api_calls : Nat
  apiAttempts : Nat
  errors : List String
  status : String
  deriving DecidableEq, Repr

/-- Mutable state of the per-batch loop in `processBatch`:
the `naturalizedMap` object, the cache table, and the stats counters the
loop touches. -/
structure LoopSt where
  map : List (String × String)
  cache : List (String × String)
  api_calls : Nat
  apiAttempts : Nat
  naturalized : Nat
  errors : List String
  deriving DecidableEq, Repr

/-- The per-name mapping loop of one batch:
`naturalName = naturalNames[j] || originalName` for each `j` below
`batch.length` — entries of the response beyond the batch length are never
read here. -/
def batchEntries (naturalNames batch : List String) :
    List (String × String) :=
  batch.enum.map fun p => (p.2, jsOr (naturalNames.getD p.1 "") p.2)

/-- The body of the batch loop of `processBatch` for batch index `b`.
On the success path the entries go into `naturalizedMap` and the cache and
`naturalized` grows; when `saveToCache` throws, the catch block logs a
batch error and overwrites the batch's names with the identity mapping
(the entries written into `naturalizedMap` before the throw are replaced),
and the cache keeps its previous contents.  `api_calls` was already
incremented before the save in either case. -/
def processOneBatch (env : BatchEnv) (b : Nat) (batch : List String)
    (st : LoopSt) : LoopSt :=
  let r := naturalizeNames (env.apiOracle b) batch
  let entries := batchEntries r.names batch
  let mapAfterTry := entries.foldl (fun m p => mapInsert m p.1 p.2) st.map
  if env.saveFails b then
    { st with
      map := batch.foldl (fun m name => mapInsert m name name) mapAfterTry
      api_calls := st.api_calls + 1
      apiAttempts := st.apiAttempts + r.apiAttempts
      errors := st.errors ++ ["Batch " ++ toString (b + 1) ++ " failed"] }
  else
    { st with
      map := mapAfterTry
      cache := saveToCache st.cache entries
      api_calls := st.api_calls + 1
      apiAttempts := st.apiAttempts + r.apiAttempts
      naturalized := st.naturalized + entries.length }

/-- The batch loop of `processBatch`: the uncached names, cut into chunks
of `BATCH_SIZE`, processed in order. -/
def runBatches (env : BatchEnv) : List (List String) → Nat → LoopSt → LoopSt
  | [], _, st => st
  | batch :: rest, b, st => runBatches env rest (b + 1) (processOneBatch env b batch st)

/-- The update list `processBatch` builds after the loop:
`records.map(record => ({place_id, natural_name:
naturalizedMap[record.google_name] || record.google_name}))` — one entry
per fetched record, falling back to the record's own display name when the
map holds nothing truthy for it. -/
def finalUpdates (records : List SourceRecord) (m : List (String × String)) :
    List (String × String) :=
  records.map fun r =>
    (r.place_id, jsOr ((lookupKey m (recordName r)).getD "") (recordName r))

/-- The filter `uncachedNames = uniqueNames.filter(name =>
!cachedNames[name])`: a cached empty string is falsy and counts as a
miss. -/
def uncachedOf (uniqueNames : List String)
    (cachedMap : List (String × String)) : List String :=
  uniqueNames.filter fun n => !jsTruthy (lookupKey cachedMap n)

/-- The whole world the pipeline mutates: the record table and the cache
table. -/
structure WorldState where
  records : List SourceRecord
  cache : List (String × String)
  deriving DecidableEq, Repr

/-- The stats of a run that found no pending records. -/
def noRecordsStats : RunStats := ⟨0, 0, 0, 0, 0, [], "no_records"⟩

/-- The cache-lookup result of a run: `cachedNames` in the source. -/
def cachedMapOf (env : BatchEnv) (w : WorldState) (limit : Nat) :
    List (String × String) :=
  (getCachedNaturalNames w.cache
    (uniqueNamesOf (getRecordsToProcess w.records limit))
    env.cacheLookupFails).found

/-- The state after the whole batch loop of a run: `naturalizedMap`, the
cache and the loop-touched counters. -/
def loopStateOf (env : BatchEnv) (w : WorldState) (limit : Nat) : LoopSt :=
  runBatches env
    (chunksOf BATCH_SIZE
      (uncachedOf (uniqueNamesOf (getRecordsToProcess w.records limit))
        (cachedMapOf env w limit)))
    0
    ⟨cachedMapOf env w limit, w.cache, 0, 0, 0, []⟩

/-- The update list of a run: one entry per fetched record. -/
def updatesOf (env : BatchEnv) (w : WorldState) (limit : Nat) :
    List (String × String) :=
  finalUpdates (getRecordsToProcess w.records limit) (loopStateOf env w limit).map

/-- The main body of `processBatch` once at least one pending record was
fetched: dedupe the display names, consult the cache, resolve the uncached
names in `BATCH_SIZE`-chunks through `naturalizeNames`, then write every
fetched record's resolution back through
`updateRecordsWithNaturalNames` (whose `totalUpdated` return value the
source ignores). -/
def processBatchRun (env : BatchEnv) (w : WorldState) (limit : Nat) :
    WorldState × RunStats :=
  (⟨(updateRecordsWithNaturalNames w.records (updatesOf env w limit)
       env.updateFailSet).1,
    (loopStateOf env w limit).cache⟩,
   ⟨(updatesOf env w limit).length, (loopStateOf env w limit).naturalized,
    (cachedMapOf env w limit).length, (loopStateOf env w limit).api_calls,
    (loopStateOf env w limit).apiAttempts, (loopStateOf env w limit).errors,
    "completed"⟩)

/-- `processBatch(options)` of the batch-processor service.  A throwing
fetch escapes through the outer catch as the only run-level failure of the
model; API failures, cache-lookup failures, cache-save failures and
record-update failures are all absorbed and the run still returns with
`status = "completed"`. -/
def processBatch (env : BatchEnv) (w : WorldState) (limit : Nat) :
    Except String (WorldState × RunStats) :=
  if env.fetchFails then .error "fetch failed" else
  if (getRecordsToProcess w.records limit).isEmpty then .ok (w, noRecordsStats)
  else .ok (processBatchRun env w limit)

/-! ## Helper definitions for the specification lemmas -/

/-- Applying a list of record updates in order, ignoring the count — the
store component of `updateRecordsWithNaturalNames` when nothing fails. -/
def applyAll (records : List SourceRecord) (updates : List (String × String)) :
    List SourceRecord :=
  updates.foldl (fun rs u => applyUpdate rs u.1 u.2) records

/-- The effect of a list of updates on one record: each update in order
either sets this record's natural name (matching `place_id`) or leaves it
alone. -/
def applyAllF (updates : List (String × String)) (r : SourceRecord) :
    SourceRecord :=
  updates.foldl
    (fun r u => if r.place_id = u.1 then { r with natural_name := some u.2 } else r)
    r

/-! ### Concrete instances used by the witnesses and counterexamples -/

/-- A three-record world: two records share the display name "Acme LLC". -/
def wAcme : WorldState :=
  ⟨[⟨"p1", some "Acme LLC", none⟩, ⟨"p2", some "Acme LLC", none⟩,
    ⟨"p3", some "Beta Co", none⟩], []⟩

/-- A failure-free environment whose generation API always answers with
two lines. -/
def envOk : BatchEnv :=
  ⟨fun _ _ => .success "Acme\nBeta", fun _ => false, false, [], false⟩

/-- An environment in which every HTTP attempt fails with the
quota-exhausted classification. -/
def envQuota : BatchEnv :=
  ⟨fun _ _ => .failure .quotaExhausted, fun _ => false, false, [], false⟩

/-- A world of two pending records whose names are already cached. -/
def wCached : WorldState :=
  ⟨[⟨"p1", some "Acme LLC", none⟩, ⟨"p2", some "Beta Co", none⟩],
   [("Acme LLC", "Acme"), ("Beta Co", "Beta")]⟩

/-- A failure-free environment except that the record update for `place_id
= "p1"` fails. -/
def envUpdFail : BatchEnv :=
  ⟨fun _ _ => .success "Acme\nBeta", fun _ => false, false, ["p1"], false⟩

/-- A one-record world whose display name is the empty string (SQL
non-null, so the fetch filter keeps it). -/
def wEmptyName : WorldState :=
  ⟨[⟨"p1", some "", none⟩], []⟩

/-- An environment whose every HTTP attempt fails with a transient error
and whose initial cache lookup also fails. -/
def envAllFail : BatchEnv :=
  ⟨fun _ _ => .failure .transient, fun _ => false, true, [], false⟩

/-- 501 distinct names, one more than the backend-safe request size. -/
def names501 : List String :=
  (List.range 501).map (fun i => toString i)

/-- Decidable equality on run results, so concrete runs can be checked by
`decide`. -/
instance {ε α : Type} [DecidableEq ε] [DecidableEq α] :
    DecidableEq (Except ε α) := fun a b =>
  match a, b with
  | .error x, .error y =>
    if h : x = y then isTrue (by rw [h]) else isFalse (by simp [h])
  | .ok x, .ok y =>
    if h : x = y then isTrue (by rw [h]) else isFalse (by simp [h])
  | .error _, .ok _ => isFalse (by simp)
  | .ok _, .error _ => isFalse (by simp)

/-! ## Lemma library -/

/-- Folding chunk-by-chunk is folding the original list: the `go`
accumulator invariant. -/
theorem chunksOf_go_foldl {α β : Type} (n : Nat) (f : β → α → β) :
    ∀ (l cur : List α) (init : β),
      (chunksOf.go n l cur).foldl (fun acc c => c.foldl f acc) init
        = (cur ++ l).foldl f init := by
  intro l
  induction l with
  | nil =>
    intro cur init
    by_cases h : cur.isEmpty
    · simp_all [chunksOf.go, List.isEmpty_iff]
    · simp_all [chunksOf.go]
  | cons x xs ih =>
    intro cur init
    by_cases h : n ≤ cur.length + 1
    · simp only [chunksOf.go, if_pos h, List.foldl_cons, ih, List.nil_append]
      simp [List.foldl_append]
    · simp only [chunksOf.go, if_neg h, ih]
      simp

/-- Folding over `chunksOf n l` chunk-by-chunk equals folding over `l`
directly: the chunking of the update and batch loops never changes the
accumulated result, only the grouping. -/
theorem chunksOf_foldl {α β : Type} (n : Nat) (f : β → α → β)
    (l : List α) (init : β) :
    (chunksOf n l).foldl (fun acc c => c.foldl f acc) init = l.foldl f init := by
  rw [chunksOf, chunksOf_go_foldl]
  rfl

/-- Every chunk produced by `chunksOf.go` with a short accumulator has at
most `n` elements. -/
theorem chunksOf_go_length {α : Type} (n : Nat) (hn : 0 < n) :
    ∀ (l cur : List α), cur.length < n →
      ∀ c ∈ chunksOf.go n l cur, c.length ≤ n := by
  intro l
  induction l with
  | nil =>
    intro cur hcur c hc
    by_cases h : cur.isEmpty <;> simp_all [chunksOf.go]
    omega
  | cons x xs ih =>
    intro cur hcur c hc
    by_cases h : n ≤ cur.length + 1
    · simp only [chunksOf.go, if_pos h, List.mem_cons] at hc
      rcases hc with rfl | hc
      · simp; omega
      · exact ih [] hn c hc
    · simp only [chunksOf.go, if_neg h] at hc
      refine ih (cur ++ [x]) ?_ c hc
      simp; omega

/-- Every chunk has at most `n` elements. -/
theorem chunksOf_length_le {α : Type} (n : Nat) (hn : 0 < n) (l : List α) :
    ∀ c ∈ chunksOf n l, c.length ≤ n :=
  chunksOf_go_length n hn l [] hn

/-- The inner fold of `updateRecordsWithNaturalNames`: failures drop their
own update and are not counted; everything else is `applyAll`. -/
theorem foldl_applyOneUpdate (failSet : List String) :
    ∀ (updates : List (String × String)) (recs : List SourceRecord) (k : Nat),
      updates.foldl (applyOneUpdate failSet) (recs, k)
        = (applyAll recs (updates.filter fun u => !(failSet.contains u.1)),
           k + (updates.filter fun u => !(failSet.contains u.1)).length) := by
  intro updates
  induction updates with
  | nil => intro recs k; simp [applyAll]
  | cons u rest ih =>
    intro recs k
    simp only [List.foldl_cons, applyOneUpdate]
    by_cases h : failSet.contains u.1
    · rw [if_pos h, ih]
      have hm : u.1 ∈ failSet := by simpa using h
      simp [List.filter_cons, hm]
    · rw [if_neg h, ih]
      simp only [List.filter_cons, h, Bool.not_false, if_pos]
      simp [applyAll]
      omega

/-- `updateRecordsWithNaturalNames` in closed form: the store is
`applyAll` of the non-failing updates, and `totalUpdated` counts exactly
the non-failing updates. -/
theorem updateRecords_eq (recs : List SourceRecord)
    (updates : List (String × String)) (failSet : List String) :
    updateRecordsWithNaturalNames recs updates failSet
      = (applyAll recs (updates.filter fun u => !(failSet.contains u.1)),
         (updates.filter fun u => !(failSet.contains u.1)).length) := by
  rw [updateRecordsWithNaturalNames,
      chunksOf_foldl 100 (applyOneUpdate failSet) updates (recs, 0),
      foldl_applyOneUpdate]
  simp

/-- Updating the whole store is updating each record independently: the
per-`place_id` `UPDATE` statements commute with the list structure of the
store. -/
theorem applyAllF_cons (u : String × String) (rest : List (String × String))
    (r : SourceRecord) :
    applyAllF (u :: rest) r
      = applyAllF rest
          (if r.place_id = u.1 then { r with natural_name := some u.2 } else r) :=
  rfl

theorem applyAll_eq_map :
    ∀ (updates : List (String × String)) (recs : List SourceRecord),
      applyAll recs updates = recs.map (applyAllF updates) := by
  intro updates
  induction updates with
  | nil =>
    intro recs
    rw [show applyAllF [] = fun r => r from rfl]
    simp [applyAll]
  | cons u rest ih =>
    intro recs
    rw [show applyAll recs (u :: rest) = applyAll (applyUpdate recs u.1 u.2) rest from rfl,
        ih,
        show applyUpdate recs u.1 u.2
          = recs.map (fun r =>
              if r.place_id = u.1 then { r with natural_name := some u.2 } else r)
          from rfl,
        List.map_map]
    rfl

/-- Updates never change a record's `place_id`. -/
theorem applyAllF_place_id (updates : List (String × String)) (r : SourceRecord) :
    (applyAllF updates r).place_id = r.place_id := by
  induction updates generalizing r with
  | nil => rfl
  | cons u rest ih =>
    simp only [applyAllF, List.foldl_cons]
    by_cases h : r.place_id = u.1 <;> simp [h, applyAllF] at ih ⊢ <;> rw [ih]

/-- Updates never change a record's `google_name`. -/
theorem applyAllF_google (updates : List (String × String)) (r : SourceRecord) :
    (applyAllF updates r).google_name = r.google_name := by
  induction updates generalizing r with
  | nil => rfl
  | cons u rest ih =>
    simp only [applyAllF, List.foldl_cons]
    by_cases h : r.place_id = u.1 <;> simp [h, applyAllF] at ih ⊢ <;> rw [ih]

/-- A record whose natural name is already set keeps a set natural name
through any update list (every update writes a non-null value). -/
theorem applyAllF_isSome (updates : List (String × String)) (r : SourceRecord)
    (h : r.natural_name.isSome) : (applyAllF updates r).natural_name.isSome := by
  induction updates generalizing r with
  | nil => exact h
  | cons u rest ih =>
    simp only [applyAllF, List.foldl_cons]
    by_cases hp : r.place_id = u.1
    · simp only [hp, if_pos rfl]
      exact ih _ (by simp)
    · simp only [if_neg hp]
      exact ih _ h

/-- A record whose `place_id` occurs among the updates ends with a set
natural name. -/
theorem applyAllF_mem_isSome (updates : List (String × String)) (r : SourceRecord)
    (h : r.place_id ∈ updates.map Prod.fst) :
    (applyAllF updates r).natural_name.isSome := by
  induction updates generalizing r with
  | nil => simp at h
  | cons u rest ih =>
    simp only [applyAllF, List.foldl_cons]
    by_cases hp : r.place_id = u.1
    · simp only [hp, if_pos rfl]
      exact applyAllF_isSome rest _ (by simp)
    · simp only [if_neg hp]
      refine ih _ ?_
      simp only [List.map_cons, List.mem_cons] at h
      exact h.resolve_left hp

/-- A record whose `place_id` never occurs among the updates is left
untouched. -/
theorem applyAllF_not_mem (updates : List (String × String)) (r : SourceRecord)
    (h : r.place_id ∉ updates.map Prod.fst) : applyAllF updates r = r := by
  induction updates generalizing r with
  | nil => rfl
  | cons u rest ih =>
    simp only [List.map_cons, List.mem_cons, not_or] at h
    simp only [applyAllF, List.foldl_cons, if_neg h.1]
    exact ih r h.2

/-- With pairwise-distinct update keys, the final natural name of a record
whose `place_id` occurs among the updates is exactly the value the update
list associates with that key. -/
theorem applyAllF_nodup (updates : List (String × String)) (r : SourceRecord)
    (hnd : (updates.map Prod.fst).Nodup) (h : r.place_id ∈ updates.map Prod.fst) :
    (applyAllF updates r).natural_name = lookupKey updates r.place_id := by
  induction updates generalizing r with
  | nil => simp at h
  | cons u rest ih =>
    simp only [List.map_cons, List.nodup_cons] at hnd
    rw [applyAllF_cons, lookupKey]
    by_cases hp : r.place_id = u.1
    · rw [if_pos hp, if_pos (by rw [hp])]
      have hmem : ({ r with natural_name := some u.2 } : SourceRecord).place_id
          ∉ rest.map Prod.fst := by
        simpa [hp] using hnd.1
      rw [applyAllF_not_mem _ _ hmem]
    · rw [if_neg hp, if_neg (fun hh => hp hh.symm)]
      refine ih _ hnd.2 ?_
      simp only [List.map_cons, List.mem_cons] at h
      exact h.resolve_left hp

/-- Membership in the JavaScript-set dedup: an element appears exactly
when it occurs in the list and is not already in the seen set. -/
theorem mem_dedupFirstAux (x : String) :
    ∀ (l seen : List String),
      x ∈ dedupFirstAux seen l ↔ x ∈ l ∧ x ∉ seen := by
  intro l
  induction l with
  | nil => intro seen; simp [dedupFirstAux]
  | cons y ys ih =>
    intro seen
    by_cases h : seen.contains y
    · have hy : y ∈ seen := by simpa using h
      simp only [dedupFirstAux, if_pos h, ih, List.mem_cons]
      constructor
      · rintro ⟨hx, hn⟩; exact ⟨Or.inr hx, hn⟩
      · rintro ⟨hx | hx, hn⟩
        · exact absurd (hx ▸ hy) hn
        · exact ⟨hx, hn⟩
    · have hy : y ∉ seen := by simpa using h
      simp only [dedupFirstAux, if_neg h, List.mem_cons, ih, List.mem_append,
        List.mem_singleton]
      constructor
      · rintro (rfl | ⟨hx, hn⟩)
        · exact ⟨Or.inl rfl, hy⟩
        · exact ⟨Or.inr hx, fun hc => hn (Or.inl hc)⟩
      · rintro ⟨rfl | hx, hn⟩
        · exact Or.inl rfl
        · by_cases hxy : x = y
          · exact Or.inl hxy
          · exact Or.inr ⟨hx, by simp [hn, hxy]⟩

/-- A name appears in the dedup list exactly when it occurs in the
original list. -/
theorem mem_dedupFirst (x : String) (l : List String) :
    x ∈ dedupFirst l ↔ x ∈ l := by
  rw [dedupFirst, mem_dedupFirstAux]
  simp

/-- The dedup list has no duplicates. -/
theorem nodup_dedupFirstAux :
    ∀ (l seen : List String), (dedupFirstAux seen l).Nodup := by
  intro l
  induction l with
  | nil => intro seen; simp [dedupFirstAux]
  | cons y ys ih =>
    intro seen
    by_cases h : seen.contains y
    · have hy : y ∈ seen := by simpa using h
      simpa [dedupFirstAux, hy] using ih seen
    · simp only [dedupFirstAux, if_neg h, List.nodup_cons]
      refine ⟨fun hc => ?_, ih _⟩
      rw [mem_dedupFirstAux] at hc
      exact hc.2 (by simp)

/-- `dedupFirst` produces distinct names. -/
theorem nodup_dedupFirst (l : List String) : (dedupFirst l).Nodup :=
  nodup_dedupFirstAux l []

/-- When every attempt up to the retry budget fails — whatever each
failure's classification — the call walks through all `remaining + 1`
attempts with the fixed delay between them and returns the input names
unchanged. -/
theorem naturalizeAux_allFail (oracle : Nat → ApiOutcome) (names : List String) :
    ∀ (remaining attempt : Nat),
      (∀ a, attempt ≤ a → a ≤ attempt + remaining →
        ∃ k, oracle a = ApiOutcome.failure k) →
      naturalizeAux oracle names remaining attempt
        = ⟨names, remaining + 1, true, List.replicate remaining RETRY_DELAY⟩ := by
  intro remaining
  induction remaining with
  | zero =>
    intro attempt h
    obtain ⟨k, hk⟩ := h attempt le_rfl (by omega)
    simp [naturalizeAux, hk]
  | succ m ih =>
    intro attempt h
    obtain ⟨k, hk⟩ := h attempt le_rfl (by omega)
    have hrec := ih (attempt + 1) (fun a ha hb => h a (by omega) (by omega))
    simp [naturalizeAux, hk, hrec, List.replicate_succ]

/-- `naturalizeNames` under total failure: `MAX_RETRIES + 1` attempts,
`MAX_RETRIES` fixed waits, then the identity fallback — never an
exception. -/
theorem naturalizeNames_allFail (oracle : Nat → ApiOutcome) (names : List String)
    (h : ∀ a, a ≤ MAX_RETRIES → ∃ k, oracle a = ApiOutcome.failure k) :
    naturalizeNames oracle names
      = ⟨names, MAX_RETRIES + 1, true, List.replicate MAX_RETRIES RETRY_DELAY⟩ := by
  rw [naturalizeNames, Nat.sub_zero]
  exact naturalizeAux_allFail oracle names MAX_RETRIES 0
    (fun a ha hb => h a (by omega))

/-- A first attempt that succeeds at the transport level makes
`naturalizeNames` return the parsed-and-padded response after exactly one
attempt. -/
theorem naturalizeNames_success (oracle : Nat → ApiOutcome) (names : List String)
    (content : String) (h : oracle 0 = ApiOutcome.success content) :
    naturalizeNames oracle names = naturalizeSuccess content names := by
  rw [naturalizeNames, Nat.sub_zero]
  show naturalizeAux oracle names (Nat.succ 2) 0 = _
  rw [naturalizeAux, h]

/-- The name list of a successful resolution is always the parsed lines
with the tail of the input appended from the parsed length on: when the
counts already match (or the response is longer) nothing is appended. -/
theorem naturalizeSuccess_names (content : String) (names : List String) :
    (naturalizeSuccess content names).names
      = padNaturalNames (parseNaturalNames content) names := by
  rw [naturalizeSuccess]
  by_cases h : (parseNaturalNames content).length = names.length
  · rw [if_neg (by simp [h]), padNaturalNames,
        List.drop_eq_nil_of_le (by omega), List.append_nil]
  · rw [if_pos (by simpa using h)]

/-- Length after padding: the larger of the parsed line count and the
input length (the source pads only upward). -/
theorem padNaturalNames_length (parsed names : List String) :
    (padNaturalNames parsed names).length = max parsed.length names.length := by
  rw [padNaturalNames]
  simp only [List.length_append, List.length_drop]
  omega

/-- Positions at or beyond the parsed line count hold the original input
names: the tail padding is the identity mapping, position by position. -/
theorem padNaturalNames_getElem (parsed names : List String) (i : Nat)
    (hge : parsed.length ≤ i) :
    (padNaturalNames parsed names)[i]? = names[i]? := by
  rw [padNaturalNames, List.getElem?_append_right hge, List.getElem?_drop]
  congr 1
  omega

/-- The empty-fetch branch of `processBatch`. -/
theorem processBatch_no_records (env : BatchEnv) (w : WorldState) (limit : Nat)
    (h1 : env.fetchFails = false)
    (h2 : (getRecordsToProcess w.records limit).isEmpty) :
    processBatch env w limit = .ok (w, noRecordsStats) := by
  rw [processBatch, h1]
  simp [h2]

/-- The main branch of `processBatch`. -/
theorem processBatch_some_records (env : BatchEnv) (w : WorldState) (limit : Nat)
    (h1 : env.fetchFails = false)
    (h2 : (getRecordsToProcess w.records limit).isEmpty = false) :
    processBatch env w limit = .ok (processBatchRun env w limit) := by
  rw [processBatch, h1]
  simp [h2]

/-- A run whose record fetch does not throw always returns a value: no API
or storage failure later in the pipeline escapes. -/
theorem processBatch_total (env : BatchEnv) (w : WorldState) (limit : Nat)
    (h1 : env.fetchFails = false) :
    (processBatch env w limit).isOk = true := by
  by_cases h2 : (getRecordsToProcess w.records limit).isEmpty
  · rw [processBatch_no_records env w limit h1 h2]; rfl
  · rw [processBatch_some_records env w limit h1 (by simpa using h2)]; rfl

/-- The update list covers exactly the fetched records' keys. -/
theorem finalUpdates_keys (records : List SourceRecord)
    (m : List (String × String)) :
    (finalUpdates records m).map Prod.fst
      = records.map SourceRecord.place_id := by
  rw [finalUpdates, List.map_map]
  rfl

/-- When the fetch limit covers all pending records,
`getRecordsToProcess` returns exactly the pending records. -/
theorem getRecordsToProcess_all (records : List SourceRecord) (limit : Nat)
    (h : (records.filter isPending).length ≤ limit) :
    getRecordsToProcess records limit = records.filter isPending := by
  rw [getRecordsToProcess, List.take_of_length_le h]

/-- After applying an update list that covers every pending record's
`place_id` and never fails, no record of the store is pending any more:
every update writes a non-null natural name, and updates touch neither
`google_name` nor `place_id`. -/
theorem applyAll_no_pending (recs : List SourceRecord)
    (updates : List (String × String))
    (hcov : ∀ r ∈ recs, isPending r → r.place_id ∈ updates.map Prod.fst) :
    (applyAll recs updates).filter isPending = [] := by
  rw [applyAll_eq_map, List.filter_eq_nil_iff]
  intro a ha
  rw [List.mem_map] at ha
  obtain ⟨r, hr, rfl⟩ := ha
  intro hpend
  by_cases hp : isPending r
  · have hsome := applyAllF_mem_isSome updates r (hcov r hr hp)
    rw [isPending] at hpend
    rcases hnat : (applyAllF updates r).natural_name with _ | v
    · rw [hnat] at hsome; simp at hsome
    · rw [hnat] at hpend; simp at hpend
  · rw [isPending] at hp hpend
    rcases hnat : r.natural_name with _ | v
    · have hg : r.google_name.isSome = false := by
        rw [hnat] at hp; simpa using hp
      rw [applyAllF_google] at hpend
      simp [hg] at hpend
    · have := applyAllF_isSome updates r (by rw [hnat]; rfl)
      rcases hnat2 : (applyAllF updates r).natural_name with _ | v2
      · rw [hnat2] at this; simp at this
      · rw [hnat2] at hpend; simp at hpend

/-- C3: a second `processBatch` run over an unchanged world is a no-op.
If the first run's fetch covers every pending record (`limit` at least the
pending count), its fetch does not throw and none of its record updates
fail, then every fetched record leaves the pending state, so a second run
— under any environment whose fetch succeeds — finds no records, issues
zero generation-API calls (neither batches nor HTTP attempts) and returns
the world unchanged: all resolved names are identical to those after the
first run. -/
theorem processBatch_idempotent (env1 env2 : BatchEnv) (w : WorldState)
    (limit limit2 : Nat)
    (h1 : env1.fetchFails = false) (h2 : env1.updateFailSet = [])
    (h3 : env2.fetchFails = false)
    (hall : (w.records.filter isPending).length ≤ limit) :
    ∃ w1 s1, processBatch env1 w limit = .ok (w1, s1)
      ∧ processBatch env2 w1 limit2 = .ok (w1, noRecordsStats) := by
  have hfetch : getRecordsToProcess w.records limit = w.records.filter isPending :=
    getRecordsToProcess_all w.records limit hall
  by_cases hemp : (w.records.filter isPending).isEmpty
  · refine ⟨w, noRecordsStats,
      processBatch_no_records env1 w limit h1 (by rw [hfetch]; exact hemp), ?_⟩
    refine processBatch_no_records env2 w limit2 h3 ?_
    rw [List.isEmpty_iff] at hemp
    rw [getRecordsToProcess, hemp]
    simp
  · have hemp' : (w.records.filter isPending).isEmpty = false :=
      Bool.eq_false_iff.mpr hemp
    have hrun := processBatch_some_records env1 w limit h1
      (by rw [hfetch]; exact hemp')
    refine ⟨(processBatchRun env1 w limit).1, (processBatchRun env1 w limit).2,
      by rw [hrun], ?_⟩
    have hrecords1 : (processBatchRun env1 w limit).1.records.filter isPending = [] := by
      show ((updateRecordsWithNaturalNames w.records (updatesOf env1 w limit)
          env1.updateFailSet).1).filter isPending = []
      rw [updateRecords_eq, h2]
      simp only [List.contains_nil, Bool.not_false, List.filter_true]
      apply applyAll_no_pending
      intro r hr hp
      rw [updatesOf, finalUpdates_keys, hfetch]
      exact List.mem_map_of_mem _ (List.mem_filter.mpr ⟨hr, hp⟩)
    refine processBatch_no_records env2 _ limit2 h3 ?_
    rw [getRecordsToProcess, hrecords1]
    simp

/-! ## Claim theorems -/

/-- C1 counterexample: a transport-successful call whose response parses
to two lines for a one-name batch returns a two-element list — the
Naturalizer's returned list does not have the input's length and nothing
is truncated by the Naturalizer itself; the source's mismatch handling
only pads upward. -/
theorem C1_counterexample :
    (naturalizeNames (fun _ => ApiOutcome.success "X\nY") ["A"]).names
      = ["X", "Y"]
    ∧ (naturalizeNames (fun _ => ApiOutcome.success "X\nY") ["A"]).names.length
        ≠ (["A"] : List String).length :=
  ⟨by decide, by decide⟩

/-- C1 (amended): for a call whose first attempt succeeds at the
transport level, the returned list has length
`max (parsed line count) (input length)` — equal to the input length
whenever the response is short or exact, but longer when the response
parses to more lines than the input; those extras are ignored only by the
caller's mapping loop (`batchEntries`), which always produces exactly one
entry per input name. -/
theorem naturalizeNames_length_max (oracle : Nat → ApiOutcome)
    (names : List String) (content : String)
    (h : oracle 0 = ApiOutcome.success content) :
    (naturalizeNames oracle names).names.length
      = max (parseNaturalNames content).length names.length
    ∧ ((parseNaturalNames content).length ≤ names.length →
       (naturalizeNames oracle names).names.length = names.length)
    ∧ (batchEntries (naturalizeNames oracle names).names names).length
        = names.length := by
  rw [naturalizeNames_success oracle names content h, naturalizeSuccess_names]
  refine ⟨padNaturalNames_length _ _, fun hle => ?_, ?_⟩
  · rw [padNaturalNames_length]; omega
  · rw [batchEntries, List.length_map, List.enum_length]

/-- Witness for the amended C1 at a concrete short response. -/
theorem naturalizeNames_length_max_witness :
    ((fun _ : Nat => ApiOutcome.success "X\nY") 0 = ApiOutcome.success "X\nY")
    ∧ ((naturalizeNames (fun _ => ApiOutcome.success "X\nY") ["A", "B", "C"]).names.length
         = max (parseNaturalNames "X\nY").length (["A", "B", "C"] : List String).length
       ∧ ((parseNaturalNames "X\nY").length ≤ (["A", "B", "C"] : List String).length →
          (naturalizeNames (fun _ => ApiOutcome.success "X\nY") ["A", "B", "C"]).names.length
            = (["A", "B", "C"] : List String).length)
       ∧ (batchEntries
            (naturalizeNames (fun _ => ApiOutcome.success "X\nY") ["A", "B", "C"]).names
            ["A", "B", "C"]).length
           = (["A", "B", "C"] : List String).length) :=
  ⟨rfl, naturalizeNames_length_max (fun _ => ApiOutcome.success "X\nY") ["A", "B", "C"]
     "X\nY" rfl⟩

/-- C2 counterexample: with every attempt failing as quota-exhausted, the
Naturalizer makes four HTTP attempts (three retries — not an immediate
abort), falls back to the identity mapping instead of propagating, and the
surrounding run finishes with status "completed", errors empty, instead of
a run-level terminal failure. -/
theorem C2_counterexample :
    (naturalizeNames (fun _ => ApiOutcome.failure ErrKind.quotaExhausted)
        ["Acme LLC"]).apiAttempts = 4
    ∧ (naturalizeNames (fun _ => ApiOutcome.failure ErrKind.quotaExhausted)
        ["Acme LLC"]).names = ["Acme LLC"]
    ∧ processBatch envQuota wAcme 10
        = .ok (⟨[⟨"p1", some "Acme LLC", some "Acme LLC"⟩,
                 ⟨"p2", some "Acme LLC", some "Acme LLC"⟩,
                 ⟨"p3", some "Beta Co", some "Beta Co"⟩],
                [("Acme LLC", "Acme LLC"), ("Beta Co", "Beta Co")]⟩,
               ⟨3, 2, 0, 1, 4, [], "completed"⟩) :=
  ⟨by decide, by decide, by decide⟩

/-- C2 (amended): an API failure with the quota-exhausted classification
does not abort anything: `naturalizeNames` never inspects the
classification, retries the call with the fixed delay like any other
failure, and after the retry budget returns the batch unchanged; no API
failure of any classification surfaces as a run-level failure — a run
whose record fetch succeeds always returns a result. -/
theorem quotaExhausted_not_fatal (oracle : Nat → ApiOutcome)
    (names : List String)
    (h : ∀ a, a ≤ MAX_RETRIES →
      oracle a = ApiOutcome.failure ErrKind.quotaExhausted) :
    naturalizeNames oracle names
      = ⟨names, MAX_RETRIES + 1, true, List.replicate MAX_RETRIES RETRY_DELAY⟩
    ∧ (∀ env w limit, env.fetchFails = false →
        (processBatch env w limit).isOk = true) :=
  ⟨naturalizeNames_allFail oracle names (fun a ha => ⟨_, h a ha⟩),
   fun env w limit hf => processBatch_total env w limit hf⟩

/-- Witness for the amended C2 at a concrete quota-exhausted oracle. -/
theorem quotaExhausted_not_fatal_witness :
    (∀ a, a ≤ MAX_RETRIES →
      (fun _ : Nat => ApiOutcome.failure ErrKind.quotaExhausted) a
        = ApiOutcome.failure ErrKind.quotaExhausted)
    ∧ (naturalizeNames (fun _ : Nat => ApiOutcome.failure ErrKind.quotaExhausted)
          ["Acme LLC"]
        = ⟨["Acme LLC"], MAX_RETRIES + 1, true,
           List.replicate MAX_RETRIES RETRY_DELAY⟩
       ∧ (∀ env w limit, env.fetchFails = false →
           (processBatch env w limit).isOk = true)) :=
  ⟨fun _ _ => rfl,
   quotaExhausted_not_fatal (fun _ => ApiOutcome.failure ErrKind.quotaExhausted)
     ["Acme LLC"] (fun _ _ => rfl)⟩

/-- C6: an API call that keeps failing with the transient classification
is retried with the fixed `RETRY_DELAY` until `MAX_RETRIES` is exhausted
and then returns the batch unchanged: the identity fallback is an
ordinary, marked return value (`fellBack`), never an exception, and the
surrounding run completes. -/
theorem transient_retry_then_identity (oracle : Nat → ApiOutcome)
    (names : List String)
    (h : ∀ a, a ≤ MAX_RETRIES →
      oracle a = ApiOutcome.failure ErrKind.transient) :
    (naturalizeNames oracle names).names = names
    ∧ (naturalizeNames oracle names).apiAttempts = MAX_RETRIES + 1
    ∧ (naturalizeNames oracle names).delays
        = List.replicate MAX_RETRIES RETRY_DELAY
    ∧ (naturalizeNames oracle names).fellBack = true
    ∧ (∀ env w limit, env.fetchFails = false →
        (processBatch env w limit).isOk = true) := by
  have hall := naturalizeNames_allFail oracle names (fun a ha => ⟨_, h a ha⟩)
  rw [hall]
  exact ⟨rfl, rfl, rfl, rfl, fun env w limit hf => processBatch_total env w limit hf⟩

/-- Witness for C6 at a concrete transient-failure oracle. -/
theorem transient_retry_then_identity_witness :
    (∀ a, a ≤ MAX_RETRIES →
      (fun _ : Nat => ApiOutcome.failure ErrKind.transient) a
        = ApiOutcome.failure ErrKind.transient)
    ∧ ((naturalizeNames (fun _ : Nat => ApiOutcome.failure ErrKind.transient)
          ["Acme LLC", "Beta Co"]).names = ["Acme LLC", "Beta Co"]
       ∧ (naturalizeNames (fun _ : Nat => ApiOutcome.failure ErrKind.transient)
            ["Acme LLC", "Beta Co"]).apiAttempts = MAX_RETRIES + 1
       ∧ (naturalizeNames (fun _ : Nat => ApiOutcome.failure ErrKind.transient)
            ["Acme LLC", "Beta Co"]).delays
           = List.replicate MAX_RETRIES RETRY_DELAY
       ∧ (naturalizeNames (fun _ : Nat => ApiOutcome.failure ErrKind.transient)
            ["Acme LLC", "Beta Co"]).fellBack = true
       ∧ (∀ env w limit, env.fetchFails = false →
           (processBatch env w limit).isOk = true)) :=
  ⟨fun _ _ => rfl,
   transient_retry_then_identity (fun _ => ApiOutcome.failure ErrKind.transient)
     ["Acme LLC", "Beta Co"] (fun _ _ => rfl)⟩

/-- C7: when the response parses to fewer lines than the batch, the
returned list has exactly the batch's length and every position at or
beyond the parsed count holds the original input name of that position;
the batch's cache write still carries one entry per input name (padded
positions included) and the batch loop pushes no error. -/
theorem short_response_padded (env : BatchEnv) (b : Nat) (batch : List String)
    (content : String) (st : LoopSt)
    (hor : env.apiOracle b 0 = ApiOutcome.success content)
    (hsave : env.saveFails b = false)
    (hshort : (parseNaturalNames content).length < batch.length) :
    (naturalizeNames (env.apiOracle b) batch).names.length = batch.length
    ∧ (∀ i, (parseNaturalNames content).length ≤ i →
        (naturalizeNames (env.apiOracle b) batch).names[i]? = batch[i]?)
    ∧ (batchEntries (naturalizeNames (env.apiOracle b) batch).names batch).length
        = batch.length
    ∧ (processOneBatch env b batch st).cache
        = saveToCache st.cache
            (batchEntries (naturalizeNames (env.apiOracle b) batch).names batch)
    ∧ (processOneBatch env b batch st).errors = st.errors := by
  have hn := naturalizeNames_success (env.apiOracle b) batch content hor
  refine ⟨?_, ?_, ?_, ?_, ?_⟩
  · rw [hn, naturalizeSuccess_names, padNaturalNames_length]; omega
  · intro i hi
    rw [hn, naturalizeSuccess_names]
    exact padNaturalNames_getElem _ _ i hi
  · rw [batchEntries, List.length_map, List.enum_length]
  · rw [processOneBatch]
    simp [hsave]
  · rw [processOneBatch]
    simp [hsave]

/-- Witness for C3: a world whose three pending records fit under the
limit; the second run finds nothing to do. -/
theorem processBatch_idempotent_witness :
    (envOk.fetchFails = false) ∧ (envOk.updateFailSet = [])
    ∧ ((wAcme.records.filter isPending).length ≤ 10)
    ∧ (∃ w1 s1, processBatch envOk wAcme 10 = .ok (w1, s1)
        ∧ processBatch envOk w1 10 = .ok (w1, noRecordsStats)) :=
  ⟨rfl, rfl, by decide,
   processBatch_idempotent envOk envOk wAcme 10 10 rfl rfl rfl (by decide)⟩

/-- A fetched record is a pending record of the store. -/
theorem mem_getRecordsToProcess (recs : List SourceRecord) (limit : Nat)
    (r : SourceRecord) (hr : r ∈ getRecordsToProcess recs limit) :
    r ∈ recs ∧ isPending r = true := by
  rw [getRecordsToProcess] at hr
  have hmem := List.mem_of_mem_take hr
  exact ⟨(List.mem_filter.mp hmem).1, (List.mem_filter.mp hmem).2⟩

/-- With distinct `place_id`s, the update list's entry for a fetched
record is exactly the map value of its display name (with the JavaScript
fallback to the name itself). -/
theorem lookupKey_finalUpdates (records : List SourceRecord)
    (m : List (String × String)) (r : SourceRecord) (hr : r ∈ records)
    (hnd : (records.map SourceRecord.place_id).Nodup) :
    lookupKey (finalUpdates records m) r.place_id
      = some (jsOr ((lookupKey m (recordName r)).getD "") (recordName r)) := by
  induction records with
  | nil => cases hr
  | cons a rest ih =>
    simp only [List.map_cons, List.nodup_cons] at hnd
    have hcons : finalUpdates (a :: rest) m
        = (a.place_id, jsOr ((lookupKey m (recordName a)).getD "") (recordName a))
          :: finalUpdates rest m := rfl
    rw [hcons]
    rcases List.mem_cons.mp hr with rfl | hmem
    · rw [lookupKey, if_pos rfl]
    · have hne : a.place_id ≠ r.place_id := fun he =>
        hnd.1 (he ▸ List.mem_map_of_mem SourceRecord.place_id hmem)
      rw [lookupKey, if_neg hne]
      exact ih hmem hnd.2

/-- The fetched records' keys are distinct whenever the store's are. -/
theorem fetched_keys_nodup (recs : List SourceRecord) (limit : Nat)
    (hnd : (recs.map SourceRecord.place_id).Nodup) :
    ((getRecordsToProcess recs limit).map SourceRecord.place_id).Nodup := by
  refine List.Nodup.sublist (List.Sublist.map _ ?_) hnd
  rw [getRecordsToProcess]
  exact List.Sublist.trans (List.take_sublist _ _) (List.filter_sublist _)

/-- C4: in a run whose fetch succeeds and whose record updates all
succeed, any two fetched records sharing a display name end with the
identical, non-null resolved name: the written value is drawn from the
single update-map entry for that name, a function of the name alone. -/
theorem fanout_identical_resolution (env : BatchEnv) (w : WorldState)
    (limit : Nat)
    (h1 : env.fetchFails = false) (h2 : env.updateFailSet = [])
    (hnd : (w.records.map SourceRecord.place_id).Nodup)
    (r1 r2 : SourceRecord)
    (hr1 : r1 ∈ getRecordsToProcess w.records limit)
    (hr2 : r2 ∈ getRecordsToProcess w.records limit)
    (hname : r1.google_name = r2.google_name)
    (w1 : WorldState) (s1 : RunStats)
    (hrun : processBatch env w limit = Except.ok (w1, s1)) :
    ∀ s1r ∈ w1.records, ∀ s2r ∈ w1.records,
      s1r.place_id = r1.place_id → s2r.place_id = r2.place_id →
      s1r.natural_name = s2r.natural_name
        ∧ s1r.natural_name.isSome = true := by
  have hne : (getRecordsToProcess w.records limit).isEmpty = false := by
    rw [List.isEmpty_eq_false_iff_exists_mem]
    exact ⟨r1, hr1⟩
  rw [processBatch_some_records env w limit h1 hne] at hrun
  have hpair := Except.ok.inj hrun
  have hw1 : w1 = (processBatchRun env w limit).1 := by rw [hpair]
  have hw1rec : w1.records
      = applyAll w.records (finalUpdates (getRecordsToProcess w.records limit)
          (loopStateOf env w limit).map) := by
    rw [hw1]
    show (updateRecordsWithNaturalNames w.records (updatesOf env w limit)
        env.updateFailSet).1 = _
    rw [updateRecords_eq, h2]
    simp only [List.contains_nil, Bool.not_false, List.filter_true]
    rw [updatesOf]
  have hkeys : (finalUpdates (getRecordsToProcess w.records limit)
        (loopStateOf env w limit).map).map Prod.fst
      = (getRecordsToProcess w.records limit).map SourceRecord.place_id :=
    finalUpdates_keys _ _
  have hndu : ((finalUpdates (getRecordsToProcess w.records limit)
        (loopStateOf env w limit).map).map Prod.fst).Nodup := by
    rw [hkeys]; exact fetched_keys_nodup w.records limit hnd
  have hfnd := fetched_keys_nodup w.records limit hnd
  have hval : ∀ s ∈ w1.records, ∀ rr, rr ∈ getRecordsToProcess w.records limit →
      s.place_id = rr.place_id →
      s.natural_name
        = some (jsOr ((lookupKey (loopStateOf env w limit).map
            (recordName rr)).getD "") (recordName rr)) := by
    intro s hs rr hrr hpid
    rw [hw1rec, applyAll_eq_map] at hs
    obtain ⟨r0, hr0, rfl⟩ := List.mem_map.mp hs
    have hp0 : r0.place_id = rr.place_id := by
      rw [← applyAllF_place_id (finalUpdates (getRecordsToProcess w.records limit)
            (loopStateOf env w limit).map) r0]
      exact hpid
    have hmemk : r0.place_id
        ∈ (finalUpdates (getRecordsToProcess w.records limit)
            (loopStateOf env w limit).map).map Prod.fst := by
      rw [hkeys, hp0]
      exact List.mem_map_of_mem SourceRecord.place_id hrr
    rw [applyAllF_nodup _ _ hndu hmemk, hp0]
    exact lookupKey_finalUpdates _ _ rr hrr hfnd
  intro s1r hs1 s2r hs2 hp1 hp2
  have hv1 := hval s1r hs1 r1 hr1 hp1
  have hv2 := hval s2r hs2 r2 hr2 hp2
  have hrn : recordName r1 = recordName r2 := by rw [recordName, recordName, hname]
  rw [hv1, hv2, hrn]
  exact ⟨rfl, rfl⟩

/-- Witness for C4: two records sharing the name "Acme LLC" resolve to
the same value after a failure-free run. -/
theorem fanout_identical_resolution_witness :
    (envOk.fetchFails = false) ∧ (envOk.updateFailSet = [])
    ∧ ((wAcme.records.map SourceRecord.place_id).Nodup)
    ∧ ((⟨"p1", some "Acme LLC", none⟩ : SourceRecord)
         ∈ getRecordsToProcess wAcme.records 10)
    ∧ ((⟨"p2", some "Acme LLC", none⟩ : SourceRecord)
         ∈ getRecordsToProcess wAcme.records 10)
    ∧ (∀ s1r ∈ (⟨[⟨"p1", some "Acme LLC", some "Acme"⟩,
                  ⟨"p2", some "Acme LLC", some "Acme"⟩,
                  ⟨"p3", some "Beta Co", some "Beta"⟩],
                 [("Acme LLC", "Acme"), ("Beta Co", "Beta")]⟩ : WorldState).records,
        ∀ s2r ∈ (⟨[⟨"p1", some "Acme LLC", some "Acme"⟩,
                   ⟨"p2", some "Acme LLC", some "Acme"⟩,
                   ⟨"p3", some "Beta Co", some "Beta"⟩],
                  [("Acme LLC", "Acme"), ("Beta Co", "Beta")]⟩ : WorldState).records,
          s1r.place_id = "p1" → s2r.place_id = "p2" →
          s1r.natural_name = s2r.natural_name
            ∧ s1r.natural_name.isSome = true) := by
  refine ⟨rfl, rfl, by decide, by decide, by decide, ?_⟩
  exact fanout_identical_resolution envOk wAcme 10 rfl rfl (by decide)
    ⟨"p1", some "Acme LLC", none⟩ ⟨"p2", some "Acme LLC", none⟩
    (by decide) (by decide) rfl
    ⟨[⟨"p1", some "Acme LLC", some "Acme"⟩,
      ⟨"p2", some "Acme LLC", some "Acme"⟩,
      ⟨"p3", some "Beta Co", some "Beta"⟩],
     [("Acme LLC", "Acme"), ("Beta Co", "Beta")]⟩
    ⟨3, 2, 0, 1, 1, [], "completed"⟩
    (by decide)

/-- C5 counterexample: a record whose display name is the empty string is
not excluded by the dedup step — the output is `[""]`, not `[]` — and its
owning record is not left untouched: the run resolves it through the API
and writes the result. -/
theorem C5_counterexample :
    uniqueNamesOf (getRecordsToProcess wEmptyName.records 10) = [""]
    ∧ uniqueNamesOf (getRecordsToProcess wEmptyName.records 10) ≠ []
    ∧ (processBatch envOk wEmptyName 10).toOption.map (fun p => p.1.records)
        = some [⟨"p1", some "", some "Acme"⟩] :=
  ⟨by decide, by decide, by decide⟩

/-- C5 (amended): the dedup step yields the distinct display-name values
of its input — all of them: empty and whitespace-only names are included,
not excluded (only SQL-null display names stay out, removed upstream by
the fetch filter), and their owning records are processed like any other;
the empty input still yields the empty output with no error. -/
theorem dedup_all_names (records : List SourceRecord) :
    (uniqueNamesOf records).Nodup
    ∧ (∀ n, n ∈ uniqueNamesOf records ↔ n ∈ records.map recordName)
    ∧ uniqueNamesOf ([] : List SourceRecord) = [] :=
  ⟨nodup_dedupFirst _, fun n => mem_dedupFirst n _, rfl⟩

/-- The batch loop depends on the environment only through the API oracle
and the save-failure flags. -/
theorem runBatches_congr (env₁ env₂ : BatchEnv)
    (hA : env₁.apiOracle = env₂.apiOracle)
    (hS : env₁.saveFails = env₂.saveFails) :
    ∀ (chunks : List (List String)) (b : Nat) (st : LoopSt),
      runBatches env₁ chunks b st = runBatches env₂ chunks b st := by
  intro chunks
  induction chunks with
  | nil => intro b st; rfl
  | cons c rest ih =>
    intro b st
    rw [runBatches, runBatches,
        show processOneBatch env₁ b c st = processOneBatch env₂ b c st from by
          rw [processOneBatch, processOneBatch, hA, hS]]
    exact ih _ _

/-- One failing chunk anywhere makes the chunked cache check of
`getUncachedRecordsByCategories` abort as a whole: `throw cacheError`
discards every already-collected chunk result. -/
theorem uncachedCacheCheck_go_error (cache : List (String × String))
    (chunkFails : Nat → Bool) :
    ∀ (chunks : List (List String)) (i : Nat) (acc : List String),
      (∃ j, j < chunks.length ∧ chunkFails (i + j) = true) →
      ∃ msg, uncachedCacheCheck.go cache chunkFails chunks i acc = .error msg := by
  intro chunks
  induction chunks with
  | nil =>
    intro i acc h
    obtain ⟨j, hj, _⟩ := h
    simp at hj
  | cons c rest ih =>
    intro i acc h
    by_cases hc : chunkFails i
    · exact ⟨"cache chunk query failed", by rw [uncachedCacheCheck.go, if_pos hc]⟩
    · obtain ⟨j, hj, hf⟩ := h
      rcases j with _ | j'
      · exact absurd hf (by simpa using hc)
      · have hrec := ih (i + 1) (acc ++ c.filter fun n => (lookupKey cache n).isSome)
          ⟨j', by simpa using hj, by rw [show i + 1 + j' = i + (j' + 1) by omega]; exact hf⟩
        obtain ⟨msg, hmsg⟩ := hrec
        exact ⟨msg, by rw [uncachedCacheCheck.go, if_neg hc]; exact hmsg⟩

/-- C8 counterexample: a lookup of 501 names issues one single backend
request carrying all 501 keys — more than the 500-key backend-safe bound,
with no chunking at all. -/
theorem C8_counterexample :
    (getCachedNaturalNames [] names501 false).requests.map List.length = [501]
    ∧ ¬(501 : Nat) ≤ 500 :=
  ⟨by decide, by decide⟩

/-- C8 (amended): `getCachedNaturalNames` never chunks: a nonempty name
set goes out as one request carrying the whole set, and a backend failure
degrades the entire lookup (not one chunk) to the empty map, every name
treated as not found, while the run proceeds; the 500-key chunking lives
only in `getUncachedRecordsByCategories`'s cache check, whose chunks are
bounded by 500 keys but where one failing chunk aborts the whole call
instead of being treated as not-found. -/
theorem cacheLookup_unchunked (cache : List (String × String))
    (names : List String) (fails : Bool) (chunkFails : Nat → Bool)
    (hne : names ≠ [])
    (hfail : ∃ j, j < (chunksOf 500 names).length ∧ chunkFails j = true) :
    (getCachedNaturalNames cache names fails).requests = [names]
    ∧ (getCachedNaturalNames cache names true).found = []
    ∧ (∀ env w limit, env.fetchFails = false →
        (processBatch env w limit).isOk = true)
    ∧ (∀ c ∈ chunksOf 500 names, c.length ≤ 500)
    ∧ (∃ msg, uncachedCacheCheck cache names chunkFails = .error msg) := by
  have hne' : names.isEmpty = false := by
    cases names with
    | nil => exact absurd rfl hne
    | cons a l => rfl
  refine ⟨?_, ?_, ?_, ?_, ?_⟩
  · rw [getCachedNaturalNames, hne']
    cases fails <;> simp
  · rw [getCachedNaturalNames, hne']
    simp
  · exact fun env w limit hf => processBatch_total env w limit hf
  · exact chunksOf_length_le 500 (by omega) names
  · rw [uncachedCacheCheck]
    exact uncachedCacheCheck_go_error cache chunkFails (chunksOf 500 names) 0 []
      (by simpa using hfail)

/-- Witness for the amended C8 at a two-name set with a failing first
chunk. -/
theorem cacheLookup_unchunked_witness :
    ((["Acme LLC", "Beta Co"] : List String) ≠ [])
    ∧ (∃ j, j < (chunksOf 500 ["Acme LLC", "Beta Co"]).length
        ∧ (fun _ : Nat => true) j = true)
    ∧ ((getCachedNaturalNames [("Acme LLC", "Acme")] ["Acme LLC", "Beta Co"] false).requests
         = [["Acme LLC", "Beta Co"]]
       ∧ (getCachedNaturalNames [("Acme LLC", "Acme")] ["Acme LLC", "Beta Co"] true).found = []
       ∧ (∀ env w limit, env.fetchFails = false →
           (processBatch env w limit).isOk = true)
       ∧ (∀ c ∈ chunksOf 500 ["Acme LLC", "Beta Co"], c.length ≤ 500)
       ∧ (∃ msg, uncachedCacheCheck [("Acme LLC", "Acme")] ["Acme LLC", "Beta Co"]
            (fun _ => true) = .error msg)) :=
  ⟨by decide, ⟨0, by decide, rfl⟩,
   cacheLookup_unchunked [("Acme LLC", "Acme")] ["Acme LLC", "Beta Co"] false
     (fun _ => true) (by decide) ⟨0, by decide, rfl⟩⟩

/-- C9 counterexample: a run in which exactly one of two record updates
fails still completes, and the other record is updated — but the run's
error list stays empty: the final error count is 0, not 1, because failed
updates are only reflected in the updater's ignored return value and in
console logs. -/
theorem C9_counterexample :
    processBatch envUpdFail wCached 10
      = .ok (⟨[⟨"p1", some "Acme LLC", none⟩, ⟨"p2", some "Beta Co", some "Beta"⟩],
              [("Acme LLC", "Acme"), ("Beta Co", "Beta")]⟩,
             ⟨2, 0, 2, 0, 0, [], "completed"⟩)
    ∧ ((0 : Nat) ≠ 1) :=
  ⟨by decide, by decide⟩

/-- C9 (amended): record-update failures are isolated — the store ends
exactly as if the failing updates had been dropped, every other update in
the chunk still applies, and the updater's returned count counts exactly
the surviving updates — and the run still completes; but the failures are
not reflected in the run's stats: the stats (error list included) are
identical whatever the update failure set, so the run's error count does
not equal the number of failed updates. -/
theorem update_failures_isolated (recs : List SourceRecord)
    (updates : List (String × String)) (failSet : List String)
    (env : BatchEnv) (w : WorldState) (limit : Nat)
    (h1 : env.fetchFails = false) :
    updateRecordsWithNaturalNames recs updates failSet
      = (applyAll recs (updates.filter fun u => !(failSet.contains u.1)),
         (updates.filter fun u => !(failSet.contains u.1)).length)
    ∧ (processBatch env w limit).isOk = true
    ∧ (processBatch env w limit).toOption.map Prod.snd
        = (processBatch { env with updateFailSet := [] } w limit).toOption.map
            Prod.snd := by
  refine ⟨updateRecords_eq recs updates failSet,
    processBatch_total env w limit h1, ?_⟩
  by_cases h2 : (getRecordsToProcess w.records limit).isEmpty
  · rw [processBatch_no_records env w limit h1 h2,
        processBatch_no_records { env with updateFailSet := [] } w limit h1 h2]
  · have h2' : (getRecordsToProcess w.records limit).isEmpty = false :=
      Bool.eq_false_iff.mpr h2
    have hloop : loopStateOf { env with updateFailSet := [] } w limit
        = loopStateOf env w limit := by
      rw [loopStateOf, loopStateOf]
      exact runBatches_congr { env with updateFailSet := [] } env rfl rfl _ _ _
    have hupd : updatesOf { env with updateFailSet := [] } w limit
        = updatesOf env w limit := by
      rw [updatesOf, updatesOf, hloop]
    have hcm : cachedMapOf { env with updateFailSet := [] } w limit
        = cachedMapOf env w limit := rfl
    rw [processBatch_some_records env w limit h1 h2',
        processBatch_some_records { env with updateFailSet := [] } w limit h1 h2']
    show some (processBatchRun env w limit).2
        = some (processBatchRun { env with updateFailSet := [] } w limit).2
    rw [processBatchRun, processBatchRun, hloop, hupd, hcm]

/-- Witness for the amended C9 on the concrete one-failing-update run. -/
theorem update_failures_isolated_witness :
    (envUpdFail.fetchFails = false)
    ∧ (updateRecordsWithNaturalNames wCached.records
         [("p1", "Acme"), ("p2", "Beta")] ["p1"]
        = (applyAll wCached.records
            ([("p1", "Acme"), ("p2", "Beta")].filter
              fun u => !((["p1"] : List String).contains u.1)),
           ([("p1", "Acme"), ("p2", "Beta")].filter
              fun u => !((["p1"] : List String).contains u.1)).length)
       ∧ (processBatch envUpdFail wCached 10).isOk = true
       ∧ (processBatch envUpdFail wCached 10).toOption.map Prod.snd
           = (processBatch { envUpdFail with updateFailSet := [] } wCached 10).toOption.map
               Prod.snd) :=
  ⟨rfl, update_failures_isolated wCached.records [("p1", "Acme"), ("p2", "Beta")]
     ["p1"] envUpdFail wCached 10 rfl⟩

/-- `jsOr` of a value with itself is the value. -/
theorem jsOr_self (x : String) : jsOr x x = x := by
  rw [jsOr]
  by_cases h : x = "" <;> simp [h]

/-- Lookup across an append: the left map wins. -/
theorem lookupKey_append (m m' : List (String × String)) (k : String) :
    lookupKey (m ++ m') k
      = match lookupKey m k with
        | some v => some v
        | none => lookupKey m' k := by
  induction m with
  | nil => rfl
  | cons p ps ih =>
    rw [List.cons_append, lookupKey, lookupKey]
    by_cases h : p.1 = k <;> simp [h, ih]

/-- A map none of whose keys is `k` resolves `k` to nothing. -/
theorem lookupKey_none_of_not_any (m : List (String × String)) (k : String)
    (h : m.any (fun p => p.1 = k) = false) : lookupKey m k = none := by
  induction m with
  | nil => rfl
  | cons p ps ih =>
    rw [List.any_cons] at h
    rw [lookupKey, if_neg (by simpa using (Bool.or_eq_false_iff.mp h).1)]
    exact ih (Bool.or_eq_false_iff.mp h).2

/-- In-place key replacement resolves the replaced key to the new value. -/
theorem lookupKey_replace_self (m : List (String × String)) (k v : String)
    (h : m.any (fun p => p.1 = k) = true) :
    lookupKey (m.map fun p => if p.1 = k then (k, v) else p) k = some v := by
  induction m with
  | nil => simp at h
  | cons p ps ih =>
    rw [List.map_cons]
    by_cases hp : p.1 = k
    · rw [if_pos hp, lookupKey, if_pos rfl]
    · rw [if_neg hp, lookupKey, if_neg hp]
      rw [List.any_cons] at h
      exact ih (by simpa [hp] using h)

/-- In-place key replacement leaves every other key's resolution alone. -/
theorem lookupKey_replace_ne (m : List (String × String)) (k v k' : String)
    (h : k' ≠ k) :
    lookupKey (m.map fun p => if p.1 = k then (k, v) else p) k'
      = lookupKey m k' := by
  induction m with
  | nil => rfl
  | cons p ps ih =>
    rw [List.map_cons]
    by_cases hp : p.1 = k
    · rw [if_pos hp, lookupKey, lookupKey, if_neg (fun hc => h hc.symm),
          if_neg (fun hc => h (hp ▸ hc).symm)]
      exact ih
    · rw [if_neg hp, lookupKey, lookupKey]
      by_cases hq : p.1 = k' <;> simp [hq, ih]

/-- `m[k] = v` makes `k` resolve to `v`. -/
theorem lookupKey_mapInsert_self (m : List (String × String)) (k v : String) :
    lookupKey (mapInsert m k v) k = some v := by
  rw [mapInsert]
  by_cases h : m.any (fun p => p.1 = k)
  · rw [if_pos h]
    exact lookupKey_replace_self m k v h
  · rw [if_neg h, lookupKey_append,
        lookupKey_none_of_not_any m k (Bool.eq_false_iff.mpr h)]
    rw [lookupKey, if_pos rfl]

/-- `m[k] = v` leaves every other key's resolution alone. -/
theorem lookupKey_mapInsert_ne (m : List (String × String)) (k v k' : String)
    (h : k' ≠ k) :
    lookupKey (mapInsert m k v) k' = lookupKey m k' := by
  rw [mapInsert]
  by_cases hany : m.any (fun p => p.1 = k)
  · rw [if_pos hany]
    exact lookupKey_replace_ne m k v k' h
  · rw [if_neg hany, lookupKey_append]
    rcases hm : lookupKey m k' with _ | v'
    · rw [lookupKey, if_neg (fun hc => h hc.symm)]
      rfl
    · rfl

/-- Folding identity assignments `m[x] = x` over a name list: each folded
name resolves to itself, everything else is untouched. -/
theorem lookupKey_foldl_insertId (batch : List String) :
    ∀ (m : List (String × String)) (n : String),
      lookupKey (batch.foldl (fun m x => mapInsert m x x) m) n
        = if n ∈ batch then some n else lookupKey m n := by
  induction batch with
  | nil => intro m n; simp
  | cons x rest ih =>
    intro m n
    rw [List.foldl_cons, ih]
    by_cases hr : n ∈ rest
    · simp [hr]
    · by_cases hx : n = x
      · subst hx
        simp [hr, lookupKey_mapInsert_self]
      · simp [hr, hx, lookupKey_mapInsert_ne m x x n hx]

/-- The mapping loop over an identity response (the response names are the
batch itself) produces exactly the identity entries. -/
theorem batchEntries_enumFrom (full : List String) :
    ∀ (sub : List String) (k : Nat), sub = full.drop k →
      (List.enumFrom k sub).map
          (fun p => (p.2, jsOr (full.getD p.1 "") p.2))
        = sub.map (fun n => (n, n)) := by
  intro sub
  induction sub with
  | nil => intro k _; rfl
  | cons x rest ih =>
    intro k h
    have hdrop : full.drop k = x :: rest := h.symm
    have hx : full.getD k "" = x := by
      have h0 : full[k]? = some x := by
        have hge := List.getElem?_drop full k 0
        rw [Nat.add_zero] at hge
        rw [← hge, hdrop]
        simp
      rw [List.getD_eq_getElem?_getD, h0]
      rfl
    have hrest : rest = full.drop (k + 1) := by
      have h2 : (full.drop k).drop 1 = full.drop (k + 1) := List.drop_drop 1 k full
      rw [hdrop] at h2
      simpa using h2
    show ((k, x) :: List.enumFrom (k + 1) rest).map
        (fun p => (p.2, jsOr (full.getD p.1 "") p.2))
      = (x, x) :: rest.map (fun n => (n, n))
    rw [List.map_cons]
    simp only
    rw [hx, jsOr_self, ih (k + 1) hrest]

/-- `batchEntries` of an identity response: one `(name, name)` entry per
batch name. -/
theorem batchEntries_self (batch : List String) :
    batchEntries batch batch = batch.map (fun n => (n, n)) := by
  rw [batchEntries]
  exact batchEntries_enumFrom batch batch 0 (by rw [List.drop_zero])

/-- The chunks flatten back to the original list. -/
theorem chunksOf_go_flatten {α : Type} (n : Nat) :
    ∀ (l cur : List α), (chunksOf.go n l cur).flatten = cur ++ l := by
  intro l
  induction l with
  | nil =>
    intro cur
    by_cases h : cur.isEmpty <;> simp_all [chunksOf.go, List.isEmpty_iff]
  | cons x xs ih =>
    intro cur
    by_cases h : n ≤ cur.length + 1
    · simp only [chunksOf.go, if_pos h, List.flatten_cons, ih]
      simp
    · simp only [chunksOf.go, if_neg h, ih]
      simp

/-- Chunking then flattening is the identity. -/
theorem chunksOf_flatten {α : Type} (n : Nat) (l : List α) :
    (chunksOf n l).flatten = l := by
  rw [chunksOf, chunksOf_go_flatten]
  rfl

/-- A failing cache lookup returns the empty map whatever the input. -/
theorem getCachedNaturalNames_fails_found (cache : List (String × String))
    (names : List String) :
    (getCachedNaturalNames cache names true).found = [] := by
  rw [getCachedNaturalNames]
  by_cases h : names.isEmpty <;> simp [h]

/-- One batch under total API failure: the batch's names all resolve to
themselves in `naturalizedMap` (whether or not the cache save then threw),
and no other key changes. -/
theorem processOneBatch_allFail_lookup (env : BatchEnv) (b : Nat)
    (batch : List String) (st : LoopSt) (n : String)
    (hfail : ∀ a, ∃ k, env.apiOracle b a = ApiOutcome.failure k) :
    lookupKey (processOneBatch env b batch st).map n
      = if n ∈ batch then some n else lookupKey st.map n := by
  have hr := naturalizeNames_allFail (env.apiOracle b) batch (fun a _ => hfail a)
  by_cases hs : env.saveFails b
  · simp only [processOneBatch, hr, if_pos hs, batchEntries_self, List.foldl_map]
    rw [lookupKey_foldl_insertId, lookupKey_foldl_insertId]
    by_cases hn : n ∈ batch <;> simp [hn]
  · simp only [processOneBatch, hr, if_neg hs, batchEntries_self, List.foldl_map]
    rw [lookupKey_foldl_insertId]

/-- The whole batch loop under total API failure: every name of every
chunk resolves to itself, everything else keeps its previous resolution. -/
theorem runBatches_allFail_lookup (env : BatchEnv)
    (hfail : ∀ b a, ∃ k, env.apiOracle b a = ApiOutcome.failure k) :
    ∀ (chunks : List (List String)) (b : Nat) (st : LoopSt) (n : String),
      lookupKey (runBatches env chunks b st).map n
        = if n ∈ chunks.flatten then some n else lookupKey st.map n := by
  intro chunks
  induction chunks with
  | nil => intro b st n; simp [runBatches]
  | cons c rest ih =>
    intro b st n
    rw [runBatches, ih, processOneBatch_allFail_lookup env b c st n (hfail b)]
    by_cases hc : n ∈ c
    · by_cases hr2 : n ∈ rest.flatten <;> simp [hc, hr2]
    · by_cases hr2 : n ∈ rest.flatten <;> simp [hc, hr2]

/-- C10: in a run whose fetch succeeds and whose record updates all
succeed (with distinct record keys), every fetched record receives an
update and ends with a set resolved name — no fetched record remains
pending; and when no display name obtains any resolution (every API
attempt of every batch fails past all retries and the cache lookup also
fails), each fetched record's resolved name is set to its own display
name rather than being left untouched. -/
theorem every_fetched_record_resolved (env : BatchEnv) (w : WorldState)
    (limit : Nat)
    (h1 : env.fetchFails = false) (h2 : env.updateFailSet = [])
    (hnd : (w.records.map SourceRecord.place_id).Nodup)
    (r : SourceRecord) (hr : r ∈ getRecordsToProcess w.records limit)
    (w1 : WorldState) (s1 : RunStats)
    (hrun : processBatch env w limit = Except.ok (w1, s1)) :
    (∀ s ∈ w1.records, s.place_id = r.place_id → s.natural_name.isSome = true)
    ∧ ((∀ b a, ∃ k, env.apiOracle b a = ApiOutcome.failure k) →
       env.cacheLookupFails = true →
       ∀ s ∈ w1.records, s.place_id = r.place_id →
         s.natural_name = some (recordName r)) := by
  have hne : (getRecordsToProcess w.records limit).isEmpty = false := by
    rw [List.isEmpty_eq_false_iff_exists_mem]
    exact ⟨r, hr⟩
  rw [processBatch_some_records env w limit h1 hne] at hrun
  have hpair := Except.ok.inj hrun
  have hw1 : w1 = (processBatchRun env w limit).1 := by rw [hpair]
  have hw1rec : w1.records
      = applyAll w.records (finalUpdates (getRecordsToProcess w.records limit)
          (loopStateOf env w limit).map) := by
    rw [hw1]
    show (updateRecordsWithNaturalNames w.records (updatesOf env w limit)
        env.updateFailSet).1 = _
    rw [updateRecords_eq, h2]
    simp only [List.contains_nil, Bool.not_false, List.filter_true]
    rw [updatesOf]
  have hkeys : (finalUpdates (getRecordsToProcess w.records limit)
        (loopStateOf env w limit).map).map Prod.fst
      = (getRecordsToProcess w.records limit).map SourceRecord.place_id :=
    finalUpdates_keys _ _
  have hndu : ((finalUpdates (getRecordsToProcess w.records limit)
        (loopStateOf env w limit).map).map Prod.fst).Nodup := by
    rw [hkeys]; exact fetched_keys_nodup w.records limit hnd
  have hfnd := fetched_keys_nodup w.records limit hnd
  have hval : ∀ s ∈ w1.records, s.place_id = r.place_id →
      s.natural_name
        = some (jsOr ((lookupKey (loopStateOf env w limit).map
            (recordName r)).getD "") (recordName r)) := by
    intro s hs hpid
    rw [hw1rec, applyAll_eq_map] at hs
    obtain ⟨r0, hr0, rfl⟩ := List.mem_map.mp hs
    have hp0 : r0.place_id = r.place_id := by
      rw [← applyAllF_place_id (finalUpdates (getRecordsToProcess w.records limit)
            (loopStateOf env w limit).map) r0]
      exact hpid
    have hmemk : r0.place_id
        ∈ (finalUpdates (getRecordsToProcess w.records limit)
            (loopStateOf env w limit).map).map Prod.fst := by
      rw [hkeys, hp0]
      exact List.mem_map_of_mem SourceRecord.place_id hr
    rw [applyAllF_nodup _ _ hndu hmemk, hp0]
    exact lookupKey_finalUpdates _ _ r hr hfnd
  constructor
  · intro s hs hpid
    rw [hval s hs hpid]
    rfl
  · intro hfail hclf s hs hpid
    have hcm : cachedMapOf env w limit = [] := by
      rw [cachedMapOf, hclf]
      exact getCachedNaturalNames_fails_found _ _
    have hunc : uncachedOf (uniqueNamesOf (getRecordsToProcess w.records limit))
        ([] : List (String × String))
        = uniqueNamesOf (getRecordsToProcess w.records limit) := by
      simp [uncachedOf, lookupKey, jsTruthy]
    have hmemu : recordName r
        ∈ uniqueNamesOf (getRecordsToProcess w.records limit) := by
      rw [uniqueNamesOf, mem_dedupFirst]
      exact List.mem_map_of_mem recordName hr
    have hlook : lookupKey (loopStateOf env w limit).map (recordName r)
        = some (recordName r) := by
      rw [loopStateOf, hcm, hunc,
          runBatches_allFail_lookup env hfail _ 0 _ (recordName r)]
      rw [chunksOf_flatten, if_pos hmemu]
    rw [hval s hs hpid, hlook]
    show some (jsOr (recordName r) (recordName r)) = some (recordName r)
    rw [jsOr_self]

/-- Witness for C10: a world under total API failure with a failed cache
lookup — each record's resolved name becomes its own display name. -/
theorem every_fetched_record_resolved_witness :
    (envAllFail.fetchFails = false) ∧ (envAllFail.updateFailSet = [])
    ∧ ((wAcme.records.map SourceRecord.place_id).Nodup)
    ∧ ((⟨"p1", some "Acme LLC", none⟩ : SourceRecord)
         ∈ getRecordsToProcess wAcme.records 10)
    ∧ ((∀ s ∈ (⟨[⟨"p1", some "Acme LLC", some "Acme LLC"⟩,
                 ⟨"p2", some "Acme LLC", some "Acme LLC"⟩,
                 ⟨"p3", some "Beta Co", some "Beta Co"⟩],
                [("Acme LLC", "Acme LLC"), ("Beta Co", "Beta Co")]⟩
                  : WorldState).records,
          s.place_id = "p1" → s.natural_name.isSome = true)
       ∧ ((∀ b a, ∃ k, envAllFail.apiOracle b a = ApiOutcome.failure k) →
          envAllFail.cacheLookupFails = true →
          ∀ s ∈ (⟨[⟨"p1", some "Acme LLC", some "Acme LLC"⟩,
                   ⟨"p2", some "Acme LLC", some "Acme LLC"⟩,
                   ⟨"p3", some "Beta Co", some "Beta Co"⟩],
                  [("Acme LLC", "Acme LLC"), ("Beta Co", "Beta Co")]⟩
                    : WorldState).records,
            s.place_id = "p1" →
            s.natural_name
              = some (recordName ⟨"p1", some "Acme LLC", none⟩))) := by
  refine ⟨rfl, rfl, by decide, by decide, ?_⟩
  exact every_fetched_record_resolved envAllFail wAcme 10 rfl rfl (by decide)
    ⟨"p1", some "Acme LLC", none⟩ (by decide)
    ⟨[⟨"p1", some "Acme LLC", some "Acme LLC"⟩,
      ⟨"p2", some "Acme LLC", some "Acme LLC"⟩,
      ⟨"p3", some "Beta Co", some "Beta Co"⟩],
     [("Acme LLC", "Acme LLC"), ("Beta Co", "Beta Co")]⟩
    ⟨3, 2, 0, 1, 4, [], "completed"⟩
    (by decide)

/-- Witness for C7: a two-line response against a three-name batch. -/
theorem short_response_padded_witness :
    (envOk.apiOracle 0 0 = ApiOutcome.success "Acme\nBeta")
    ∧ (envOk.saveFails 0 = false)
    ∧ ((parseNaturalNames "Acme\nBeta").length
         < (["Acme LLC", "Beta Co", "Gamma Inc"] : List String).length)
    ∧ ((naturalizeNames (envOk.apiOracle 0)
          ["Acme LLC", "Beta Co", "Gamma Inc"]).names.length
         = (["Acme LLC", "Beta Co", "Gamma Inc"] : List String).length
       ∧ (∀ i, (parseNaturalNames "Acme\nBeta").length ≤ i →
           (naturalizeNames (envOk.apiOracle 0)
              ["Acme LLC", "Beta Co", "Gamma Inc"]).names[i]?
             = (["Acme LLC", "Beta Co", "Gamma Inc"] : List String)[i]?)
       ∧ (batchEntries
            (naturalizeNames (envOk.apiOracle 0)
              ["Acme LLC", "Beta Co", "Gamma Inc"]).names
            ["Acme LLC", "Beta Co", "Gamma Inc"]).length
           = (["Acme LLC", "Beta Co", "Gamma Inc"] : List String).length
       ∧ (processOneBatch envOk 0 ["Acme LLC", "Beta Co", "Gamma Inc"]
            ⟨[], [], 0, 0, 0, []⟩).cache
           = saveToCache ([] : List (String × String))
               (batchEntries
                 (naturalizeNames (envOk.apiOracle 0)
                   ["Acme LLC", "Beta Co", "Gamma Inc"]).names
                 ["Acme LLC", "Beta Co", "Gamma Inc"])
       ∧ (processOneBatch envOk 0 ["Acme LLC", "Beta Co", "Gamma Inc"]
            ⟨[], [], 0, 0, 0, []⟩).errors = ([] : List String)) :=
  ⟨rfl, rfl, by decide,
   short_response_padded envOk 0 ["Acme LLC", "Beta Co", "Gamma Inc"]
     "Acme\nBeta" ⟨[], [], 0, 0, 0, []⟩ rfl rfl (by decide)⟩

end Naturalizer
